import Mathlib

/-!
Shallow embedding of `tradingview-api-data-extractor.py`, a polling
trading-signal script: moving-average crossover signals over fixed-capacity
price windows, a retry-on-429 fetch wrapper, 10-minute grid alignment for
low-frequency scheduling, preload of price history, and change-triggered
signal logging.  Prices are modelled as rationals, time as a broken-down
timestamp structure mirroring Python `datetime` fields.
-/

namespace TVX

/-- `SHORT_MA = 5` from the configuration section. -/
def SHORT_MA : ℕ := 5

/-- `LONG_MA = 15` from the configuration section. -/
def LONG_MA : ℕ := 15

/-- `HIGH_FREQ_INTERVAL = 60` seconds. -/
def HIGH_FREQ_INTERVAL : ℕ := 60

/-- `HIGH_FREQ_DURATION = 30` minutes from market open. -/
def HIGH_FREQ_DURATION : ℕ := 30

/-- The trading signal strings `"BUY" | "SELL" | "HOLD"`. -/
inductive Signal where
  | BUY
  | SELL
  | HOLD
deriving DecidableEq, Repr

/-- `collections.deque(maxlen := cap).append p`: append on the right,
evicting the oldest (leftmost) element when the deque is at capacity. -/
def dequeAppend (cap : ℕ) (w : List ℚ) (p : ℚ) : List ℚ :=
  if w.length < cap then w ++ [p] else w.tail ++ [p]

/-- `get_swing_signal(price_history, current_price)`: appends the price to
the window (a deque of capacity `LONG_MA`), returns `("HOLD", 0, 0)` while
the window holds fewer than `LONG_MA` prices, otherwise compares the mean
of the last `SHORT_MA` entries with `sum/LONG_MA` over the whole window.
The first component is the mutated window. -/
def get_swing_signal (price_history : List ℚ) (current_price : ℚ) :
    List ℚ × Signal × ℚ × ℚ :=
  let w := dequeAppend LONG_MA price_history current_price
  if w.length < LONG_MA then (w, Signal.HOLD, 0, 0)
  else
    let short_ma := (w.drop (w.length - SHORT_MA)).sum / (SHORT_MA : ℚ)
    let long_ma := w.sum / (LONG_MA : ℚ)
    let signal :=
      if short_ma > long_ma then Signal.BUY
      else if short_ma < long_ma then Signal.SELL
      else Signal.HOLD
    (w, signal, short_ma, long_ma)

/-- The arithmetic mean of a list of rationals (specification notion). -/
def meanQ (l : List ℚ) : ℚ := l.sum / (l.length : ℚ)

/-- One row written by `log_signal` (timestamp abstracted away). -/
structure SignalRecord where
  price : ℚ
  short_ma : ℚ
  long_ma : ℚ
  signal : Signal
deriving DecidableEq, Repr

/-- Per-instrument mutable state owned by `main`: the price window and
`last_signal[ticker]` (initialised to `None`). -/
structure TickState where
  window : List ℚ
  lastSignal : Option Signal
deriving DecidableEq, Repr

/-- One per-instrument iteration of the polling loop body
(`main`, lines 124-133): on a failed fetch (`None`) skip the instrument
entirely; on a fetched price run `get_swing_signal`, and iff the computed
signal differs from `last_signal[ticker]` write a `SignalRecord` and update
`last_signal[ticker]`. -/
def tickStep (s : TickState) (fetched : Option ℚ) :
    TickState × Option SignalRecord :=
  match fetched with
  | none => (s, none)
  | some p =>
    let r := get_swing_signal s.window p
    let w := r.1
    let signal := r.2.1
    let short_ma := r.2.2.1
    let long_ma := r.2.2.2
    if s.lastSignal ≠ some signal then
      (⟨w, some signal⟩, some ⟨p, short_ma, long_ma, signal⟩)
    else
      (⟨w, s.lastSignal⟩, none)

/-- Runs `tickStep` over a list of fetch outcomes, collecting the written
records and, for each successful fetch, the computed signal. -/
def runTicks (s : TickState) : List (Option ℚ) →
    TickState × List SignalRecord × List Signal
  | [] => (s, [], [])
  | f :: fs =>
    let step := tickStep s f
    let rest := runTicks step.1 fs
    match f with
    | none => rest
    | some p =>
      let sig := (get_swing_signal s.window p).2.1
      (rest.1, (step.2.toList ++ rest.2.1), sig :: rest.2.2)

/-- The outcome of one `handler.get_analysis()` attempt: a close price, an
exception whose message contains `"429"`, or any other exception. -/
inductive FetchOutcome where
  | ok (p : ℚ)
  | rateLimited
  | unavailable
deriving DecidableEq, Repr

/-- The `while attempt < retries` loop of `get_tradingview_price`, with the
upstream modelled as an oracle mapping the attempt index to an outcome.
Returns the result, the number of attempts performed, and the list of
`time.sleep` durations executed.  On `"429"` the attempt counter advances
and the loop sleeps `delay`; on any other exception the function returns
`None` at once; on exhaustion it returns `None`. -/
def getPriceLoop (fetch : ℕ → FetchOutcome) (delay : ℕ) :
    (attempt : ℕ) → (fuel : ℕ) → Option ℚ × ℕ × List ℕ
  | _, 0 => (none, 0, [])
  | attempt, fuel + 1 =>
    match fetch attempt with
    | .ok p => (some p, 1, [])
    | .rateLimited =>
      let rest := getPriceLoop fetch delay (attempt + 1) fuel
      (rest.1, rest.2.1 + 1, delay :: rest.2.2)
    | .unavailable => (none, 1, [])

/-- `get_tradingview_price(ticker, interval, retries=3, delay=5)` with the
network abstracted into the oracle `fetch`. -/
def get_tradingview_price (fetch : ℕ → FetchOutcome)
    (retries : ℕ := 3) (delay : ℕ := 5) : Option ℚ × ℕ × List ℕ :=
  getPriceLoop fetch delay 0 retries

/-- `preload_price_history(ticker, history_deque, interval)`: one fetch
attempt; on success append the fetched price `LONG_MA` times to the deque;
on any exception (429 or otherwise) leave the deque untouched.  Returns the
resulting deque contents together with the number of fetch attempts made
(structurally always one). -/
def preload_price_history (fetch : FetchOutcome) (history_deque : List ℚ) :
    List ℚ × ℕ :=
  match fetch with
  | .ok p => ((List.range LONG_MA).foldl (fun w _ => dequeAppend LONG_MA w p)
      history_deque, 1)
  | .rateLimited => (history_deque, 1)
  | .unavailable => (history_deque, 1)

/-- A broken-down timestamp, mirroring the `datetime` fields the script
reads and writes.  `day` counts calendar days; `replace` keeps it fixed. -/
structure DT where
  day : ℕ
  hour : ℕ
  minute : ℕ
  second : ℕ
  micro : ℕ
deriving DecidableEq, Repr

/-- A `DT` whose fields are in range. -/
def DT.valid (t : DT) : Prop :=
  t.hour < 24 ∧ t.minute < 60 ∧ t.second < 60 ∧ t.micro < 1000000

instance (t : DT) : Decidable t.valid := by
  unfold DT.valid; infer_instance

/-- Total microseconds since the epoch of day 0; `datetime` comparison and
subtraction order timestamps this way. -/
def DT.toMicros (t : DT) : ℕ :=
  (((t.day * 24 + t.hour) * 60 + t.minute) * 60 + t.second) * 1000000 + t.micro

/-- `t + timedelta(minutes := k)`: minute arithmetic with hour and day
carry, seconds and microseconds untouched. -/
def DT.addMinutes (t : DT) (k : ℕ) : DT :=
  let total := (t.day * 24 + t.hour) * 60 + t.minute + k
  { day := total / 1440
    hour := total % 1440 / 60
    minute := total % 60
    second := t.second
    micro := t.micro }

/-- `get_next_10min_run(now)`: round the minute up to the next multiple of
10, carry into the hour (wrapped with `% 24`, date unchanged, exactly as
`now.replace(...)` behaves), zero seconds and microseconds, and add ten
minutes if the computed instant is not after `now`. -/
def get_next_10min_run (now : DT) : DT :=
  let next_minute := (now.minute / 10 + 1) * 10
  let carried : ℕ × ℕ :=
    if 60 ≤ next_minute then (next_minute - 60, now.hour + 1)
    else (next_minute, now.hour)
  let next_run : DT :=
    { day := now.day, hour := carried.2 % 24, minute := carried.1
      second := 0, micro := 0 }
  if next_run.toMicros ≤ now.toMicros then next_run.addMinutes 10 else next_run

/-- The TradingView bar resolution requested for a tick. -/
inductive Resolution where
  | min1
  | min15
deriving DecidableEq, Repr

/-- How the loop sleeps after a tick: a fixed number of seconds, or until
the next 10-minute grid boundary clamped below by a floor. -/
inductive SleepPolicy where
  | fixed (seconds : ℕ)
  | untilNext10Min (floorSeconds : ℕ)
deriving DecidableEq, Repr

/-- What one iteration of the `while True` loop in `main` decides from the
clock: `none` outside `[market_open, market_close]`, otherwise the
resolution, which history table is fed (`min1` or `min15` windows) and the
sleep policy.  Times are instants ordered by a single number (microseconds
suffice); `now < high_freq_end` selects the fixed-60-second high-frequency
branch. -/
def selectPlan (now market_open market_close high_freq_end : ℕ) :
    Option (Resolution × Resolution × SleepPolicy) :=
  if market_open ≤ now ∧ now ≤ market_close then
    if now < high_freq_end then
      some (Resolution.min1, Resolution.min1, SleepPolicy.fixed HIGH_FREQ_INTERVAL)
    else
      some (Resolution.min15, Resolution.min15, SleepPolicy.untilNext10Min 5)
  else none

/-- The fifteen ascending prices `1..15`, each delivered by a successful
fetch, as fed to a fresh tracker in the end-to-end scenario. -/
def ascendingPrices : List (Option ℚ) :=
  [some 1, some 2, some 3, some 4, some 5, some 6, some 7, some 8,
   some 9, some 10, some 11, some 12, some 13, some 14, some 15]

/-! ## Helper lemmas -/

/-- While the window stays below capacity after the append, `get_swing_signal`
returns the insufficient-data sentinel and the append does not evict. -/
lemma swing_hold_of_short (w : List ℚ) (p : ℚ)
    (h : (dequeAppend LONG_MA w p).length < LONG_MA) :
    get_swing_signal w p = (w ++ [p], Signal.HOLD, 0, 0) := by
  have hw : w.length < LONG_MA := by
    by_contra hw
    push_neg at hw
    have hlen : (dequeAppend LONG_MA w p).length = w.length := by
      unfold dequeAppend
      rw [if_neg (by omega)]
      simp only [List.length_append, List.length_tail, List.length_cons,
        List.length_nil]
      omega
    omega
  have hda : dequeAppend LONG_MA w p = w ++ [p] := by
    unfold dequeAppend
    rw [if_pos hw]
  rw [hda] at h
  unfold get_swing_signal
  rw [hda, if_pos h]

lemma tickStep_none_eq (s : TickState) : tickStep s none = (s, none) := rfl

lemma tickStep_same (s : TickState) (p : ℚ)
    (h : s.lastSignal = some (get_swing_signal s.window p).2.1) :
    tickStep s (some p) = (⟨(get_swing_signal s.window p).1, s.lastSignal⟩, none) := by
  simp only [tickStep, h, ne_eq, not_true_eq_false, if_false, ite_not]

lemma tickStep_diff (s : TickState) (p : ℚ)
    (h : s.lastSignal ≠ some (get_swing_signal s.window p).2.1) :
    tickStep s (some p) =
      (⟨(get_swing_signal s.window p).1, some (get_swing_signal s.window p).2.1⟩,
       some ⟨p, (get_swing_signal s.window p).2.2.1,
         (get_swing_signal s.window p).2.2.2, (get_swing_signal s.window p).2.1⟩) := by
  simp only [tickStep, ne_eq, h, not_false_eq_true, if_true]

/-- The records written by a run have no two adjacent equal signals, and the
first written record's signal differs from the initial `last_signal`. -/
lemma runTicks_chain (s : TickState) (fs : List (Option ℚ)) :
    List.Chain' (fun a b : SignalRecord => a.signal ≠ b.signal) (runTicks s fs).2.1 ∧
    ∀ r, ((runTicks s fs).2.1).head? = some r → s.lastSignal ≠ some r.signal := by
  induction fs generalizing s with
  | nil =>
    refine ⟨List.chain'_nil, fun r hr => ?_⟩
    simp [runTicks] at hr
  | cons f fs ih =>
    match f with
    | none =>
      have hstep : runTicks s (none :: fs) = runTicks s fs := by
        simp [runTicks, tickStep_none_eq]
      rw [hstep]
      exact ih s
    | some p =>
      by_cases hc : s.lastSignal = some (get_swing_signal s.window p).2.1
      · have hstep : (runTicks s (some p :: fs)).2.1 =
            (runTicks ⟨(get_swing_signal s.window p).1, s.lastSignal⟩ fs).2.1 := by
          simp [runTicks, tickStep_same s p hc]
        rw [hstep]
        exact (ih _)
      · have hstep : (runTicks s (some p :: fs)).2.1 =
            (⟨p, (get_swing_signal s.window p).2.2.1,
              (get_swing_signal s.window p).2.2.2, (get_swing_signal s.window p).2.1⟩ :
                SignalRecord) ::
            (runTicks ⟨(get_swing_signal s.window p).1,
              some (get_swing_signal s.window p).2.1⟩ fs).2.1 := by
          simp [runTicks, tickStep_diff s p hc]
        rw [hstep]
        obtain ⟨ihchain, ihhead⟩ :=
          ih (⟨(get_swing_signal s.window p).1, some (get_swing_signal s.window p).2.1⟩ :
            TickState)
        constructor
        · rw [List.chain'_cons']
          refine ⟨fun y hy => ?_, ihchain⟩
          have := ihhead y hy
          simpa using this
        · intro r hr
          simp only [List.head?_cons, Option.some_inj] at hr
          subst hr
          simpa using hc

/-- Under an always-rate-limited upstream, the retry loop burns the whole
budget, sleeping `delay` after each failed attempt. -/
lemma getPriceLoop_all429 (fetch : ℕ → FetchOutcome) (delay : ℕ)
    (h : ∀ i, fetch i = FetchOutcome.rateLimited) :
    ∀ fuel attempt, getPriceLoop fetch delay attempt fuel =
      (none, fuel, List.replicate fuel delay) := by
  intro fuel
  induction fuel with
  | zero => intro attempt; rfl
  | succ n ih =>
    intro attempt
    unfold getPriceLoop
    rw [h attempt]
    simp only [ih (attempt + 1)]
    rfl

/-- If the first `k` attempts are rate-limited and attempt `k` raises a
non-429 exception while budget remains, the loop stops right after attempt
`k`, having slept once per rate-limited attempt. -/
lemma getPriceLoop_non429 (fetch : ℕ → FetchOutcome) (delay : ℕ) :
    ∀ (k attempt fuel : ℕ), k < fuel →
      (∀ j, j < k → fetch (attempt + j) = FetchOutcome.rateLimited) →
      fetch (attempt + k) = FetchOutcome.unavailable →
      getPriceLoop fetch delay attempt fuel =
        (none, k + 1, List.replicate k delay) := by
  intro k
  induction k with
  | zero =>
    intro attempt fuel hf h429 hu
    obtain ⟨f, rfl⟩ : ∃ f, fuel = f + 1 := ⟨fuel - 1, by omega⟩
    unfold getPriceLoop
    rw [show attempt + 0 = attempt by omega] at hu
    rw [hu]
    rfl
  | succ n ih =>
    intro attempt fuel hf h429 hu
    obtain ⟨f, rfl⟩ : ∃ f, fuel = f + 1 := ⟨fuel - 1, by omega⟩
    unfold getPriceLoop
    have h0 : fetch attempt = FetchOutcome.rateLimited := by
      have := h429 0 (by omega)
      simpa using this
    rw [h0]
    simp only
    rw [ih (attempt + 1) f (by omega)
      (fun j hj => by
        have := h429 (j + 1) (by omega)
        rw [show attempt + 1 + j = attempt + (j + 1) by omega]
        exact this)
      (by
        rw [show attempt + 1 + n = attempt + (n + 1) by omega]
        exact hu)]
    simp [List.replicate_succ]

/-! ## Claims -/

/-- C1: when the window holds exactly `LONG_MA = 15` prices after the new
price is appended, `get_swing_signal` returns `short_ma` equal to the
arithmetic mean of the last `SHORT_MA = 5` entries, `long_ma` equal to the
arithmetic mean of all 15 entries, and the signal is `BUY` iff
`short_ma > long_ma`, `SELL` iff `short_ma < long_ma` and `HOLD` iff they
are exactly equal. -/
theorem get_swing_signal_full_window (w : List ℚ) (p : ℚ)
    (h : (dequeAppend LONG_MA w p).length = LONG_MA) :
    (get_swing_signal w p).1 = dequeAppend LONG_MA w p ∧
    (get_swing_signal w p).2.2.1 =
      meanQ ((dequeAppend LONG_MA w p).drop
        ((dequeAppend LONG_MA w p).length - SHORT_MA)) ∧
    (get_swing_signal w p).2.2.2 = meanQ (dequeAppend LONG_MA w p) ∧
    ((get_swing_signal w p).2.1 = Signal.BUY ↔
      (get_swing_signal w p).2.2.1 > (get_swing_signal w p).2.2.2) ∧
    ((get_swing_signal w p).2.1 = Signal.SELL ↔
      (get_swing_signal w p).2.2.1 < (get_swing_signal w p).2.2.2) ∧
    ((get_swing_signal w p).2.1 = Signal.HOLD ↔
      (get_swing_signal w p).2.2.1 = (get_swing_signal w p).2.2.2) := by
  have hsm : SHORT_MA ≤ LONG_MA := by decide
  have hlt : ¬ (dequeAppend LONG_MA w p).length < LONG_MA := by omega
  have hdrop : ((dequeAppend LONG_MA w p).drop
      ((dequeAppend LONG_MA w p).length - SHORT_MA)).length = SHORT_MA := by
    rw [List.length_drop]
    omega
  simp only [get_swing_signal]
  rw [if_neg hlt]
  dsimp only
  refine ⟨rfl, ?_, ?_, ?_⟩
  · rw [meanQ, hdrop]
  · rw [meanQ, h]
  · split_ifs with hb hs
    · exact ⟨⟨fun _ => hb, fun _ => rfl⟩,
        ⟨fun hx => (nomatch hx), fun hx => (show False by linarith).elim⟩,
        ⟨fun hx => (nomatch hx), fun hx => (show False by linarith).elim⟩⟩
    · exact ⟨⟨fun hx => (nomatch hx), fun hx => (show False by linarith).elim⟩,
        ⟨fun _ => hs, fun _ => rfl⟩,
        ⟨fun hx => (nomatch hx), fun hx => (show False by linarith).elim⟩⟩
    · have heq := le_antisymm (not_lt.mp hb) (not_lt.mp hs)
      exact ⟨⟨fun hx => (nomatch hx), fun hx => (show False by linarith).elim⟩,
        ⟨fun hx => (nomatch hx), fun hx => (show False by linarith).elim⟩,
        ⟨fun _ => heq, fun _ => rfl⟩⟩

/-- C1 witness: a concrete full window. -/
theorem get_swing_signal_full_window_witness :
    (get_swing_signal (List.replicate 14 (2 : ℚ)) 2).2.2.2 =
      meanQ (dequeAppend LONG_MA (List.replicate 14 (2 : ℚ)) 2) :=
  (get_swing_signal_full_window (List.replicate 14 (2 : ℚ)) 2 (by decide)).2.2.1

/-- C6: if the window still holds fewer than `LONG_MA` prices after the
append, `get_swing_signal` returns exactly `(HOLD, 0, 0)` and the only state
change is that the price was appended on the right. -/
theorem get_swing_signal_insufficient (w : List ℚ) (p : ℚ)
    (h : (dequeAppend LONG_MA w p).length < LONG_MA) :
    get_swing_signal w p = (w ++ [p], Signal.HOLD, 0, 0) :=
  swing_hold_of_short w p h

/-- C6 witness: a fresh window. -/
theorem get_swing_signal_insufficient_witness :
    get_swing_signal [] 1 = ([1], Signal.HOLD, 0, 0) :=
  get_swing_signal_insufficient [] 1 (by decide)

/-- C10: with `last_signal` still `None` and a window of fewer than
`LONG_MA - 1` prices, a successful fetch runs the insufficient-data sentinel
through the ordinary change-detection path: a `SignalRecord` with signal
`HOLD` and both averages `0` is written and `last_signal` becomes `HOLD`. -/
theorem first_success_logs_sentinel (w : List ℚ) (p : ℚ)
    (h : w.length < LONG_MA - 1) :
    tickStep ⟨w, none⟩ (some p) =
      (⟨w ++ [p], some Signal.HOLD⟩, some ⟨p, 0, 0, Signal.HOLD⟩) := by
  have hlen : (dequeAppend LONG_MA w p).length < LONG_MA := by
    unfold dequeAppend
    rw [if_pos (by omega)]
    simp only [List.length_append, List.length_cons, List.length_nil]
    omega
  have hs := swing_hold_of_short w p hlen
  have hd := tickStep_diff ⟨w, none⟩ p (by rw [hs]; exact fun hx => by cases hx)
  rw [hd, hs]

/-- C10 witness: first tick from a fresh state. -/
theorem first_success_logs_sentinel_witness :
    tickStep ⟨[], none⟩ (some 1) =
      (⟨[1], some Signal.HOLD⟩, some ⟨1, 0, 0, Signal.HOLD⟩) :=
  first_success_logs_sentinel [] 1 (by decide)

/-- C2 counterexample: the run over the ascending prices `1..15` from a
fresh tracker writes two `SignalRecord`s, not one (the insufficient-data
`HOLD` sentinel at the first tick is logged against the initial `None`). -/
theorem runTicks_ascending_not_one_record :
    ((runTicks ⟨[], none⟩ ascendingPrices).2.1).length ≠ 1 := by
  have h2 : ((runTicks ⟨[], none⟩ ascendingPrices).2.1).length = 2 := by
    with_unfolding_all rfl
  omega

/-- C2 (amended): feeding 1..15 into a fresh tracker yields `HOLD` for the
first 14 observations and `BUY` at the 15th with `short_ma = 13` and
`long_ma = 8`; exactly two `SignalRecord`s are written: `(1, 0, 0, HOLD)` at
the first observation and `(15, 13, 8, BUY)` at the fifteenth. -/
theorem runTicks_ascending_run :
    (runTicks ⟨[], none⟩ ascendingPrices).2.2 =
      List.replicate 14 Signal.HOLD ++ [Signal.BUY] ∧
    (runTicks ⟨[], none⟩ ascendingPrices).2.1 =
      [⟨1, 0, 0, Signal.HOLD⟩, ⟨15, 13, 8, Signal.BUY⟩] := by
  constructor
  · with_unfolding_all rfl
  · with_unfolding_all rfl

/-- Folding `deque.append p` up to capacity-many times onto an empty deque
yields that many copies of `p`. -/
lemma foldl_dequeAppend_replicate (p : ℚ) :
    ∀ n, n ≤ LONG_MA →
      (List.range n).foldl (fun w _ => dequeAppend LONG_MA w p) [] =
        List.replicate n p := by
  intro n
  induction n with
  | zero => intro _; rfl
  | succ k ih =>
    intro hk
    rw [List.range_succ, List.foldl_append, ih (by omega)]
    simp only [List.foldl_cons, List.foldl_nil]
    rw [dequeAppend, if_pos (by simp only [List.length_replicate]; omega),
      ← List.replicate_succ']

/-- C3 counterexample: at 23:55 the carried hour 24 is wrapped by `% 24`
while `replace` keeps the date, so `get_next_10min_run` returns 00:10 of
the same calendar day — an instant before its input, refuting the claim
that the result is strictly after `now` for every timestamp. -/
theorem get_next_10min_run_day_wrap :
    DT.valid ⟨0, 23, 55, 0, 0⟩ ∧
    get_next_10min_run ⟨0, 23, 55, 0, 0⟩ = ⟨0, 0, 10, 0, 0⟩ ∧
    (get_next_10min_run ⟨0, 23, 55, 0, 0⟩).toMicros <
      DT.toMicros ⟨0, 23, 55, 0, 0⟩ := by decide

/-- C3 (amended): for every valid timestamp outside the last 10-minute
block of the day (hour 23, minute ≥ 50), `get_next_10min_run` returns an
instant on the 10-minute wall-clock grid (seconds and microseconds zero,
minute a multiple of ten) strictly after its input — in particular 14:07
maps to 14:10 and exactly 14:10:00 maps to 14:20; for every valid
timestamp in that last block it instead returns 00:10 of the same calendar
day, which precedes the input. -/
theorem get_next_10min_run_aligned (t : DT) (hv : t.valid) :
    ((t.hour < 23 ∨ t.minute < 50) →
      (get_next_10min_run t).second = 0 ∧
      (get_next_10min_run t).micro = 0 ∧
      (get_next_10min_run t).minute % 10 = 0 ∧
      t.toMicros < (get_next_10min_run t).toMicros) ∧
    (t.hour = 23 → 50 ≤ t.minute →
      get_next_10min_run t = ⟨t.day, 0, 10, 0, 0⟩ ∧
      (get_next_10min_run t).toMicros < t.toMicros) ∧
    get_next_10min_run ⟨0, 14, 7, 0, 0⟩ = ⟨0, 14, 10, 0, 0⟩ ∧
    get_next_10min_run ⟨0, 14, 10, 0, 0⟩ = ⟨0, 14, 20, 0, 0⟩ := by
  obtain ⟨hH, hM, hS, hU⟩ := hv
  refine ⟨?_, ?_, by decide, by decide⟩
  · intro hnd
    simp only [get_next_10min_run, DT.addMinutes, DT.toMicros]
    split_ifs with hc hg hg <;>
      refine ⟨?_, ?_, ?_, ?_⟩ <;> simp only [] <;> omega
  · intro h23 h50
    have hc : 60 ≤ (t.minute / 10 + 1) * 10 := by omega
    have h24 : (t.hour + 1) % 24 = 0 := by omega
    have hm0 : (t.minute / 10 + 1) * 10 - 60 = 0 := by omega
    simp only [get_next_10min_run, DT.addMinutes, DT.toMicros, if_pos hc,
      h24, hm0]
    split_ifs with hg
    · dsimp only
      constructor
      · simp only [DT.mk.injEq]
        refine ⟨by omega, by omega, by omega, trivial, trivial⟩
      · omega
    · exfalso
      omega

/-- C3 witness: 14:07 maps to 14:10 (strictly later), and 23:55:30 falls
back to 00:10 of the same day. -/
theorem get_next_10min_run_aligned_witness :
    get_next_10min_run ⟨0, 14, 7, 0, 0⟩ = ⟨0, 14, 10, 0, 0⟩ ∧
    DT.toMicros ⟨0, 14, 7, 0, 0⟩ <
      (get_next_10min_run ⟨0, 14, 7, 0, 0⟩).toMicros ∧
    get_next_10min_run ⟨0, 23, 55, 30, 0⟩ = ⟨0, 0, 10, 0, 0⟩ :=
  ⟨(get_next_10min_run_aligned ⟨0, 14, 7, 0, 0⟩ (by decide)).2.2.1,
   ((get_next_10min_run_aligned ⟨0, 14, 7, 0, 0⟩ (by decide)).1
     (Or.inl (by decide))).2.2.2,
   ((get_next_10min_run_aligned ⟨0, 23, 55, 30, 0⟩ (by decide)).2.1
     rfl (by decide)).1⟩

/-- C4: per tick, a computed signal equal to the stored `last_signal`
writes no record and leaves `last_signal` unchanged; a differing signal
writes the record and updates `last_signal`; consequently the records of
any run never contain two adjacent entries with the same signal. -/
theorem tickStep_change_detection (s : TickState) (p : ℚ)
    (fs : List (Option ℚ)) :
    (s.lastSignal = some (get_swing_signal s.window p).2.1 →
      tickStep s (some p) =
        (⟨(get_swing_signal s.window p).1, s.lastSignal⟩, none)) ∧
    (s.lastSignal ≠ some (get_swing_signal s.window p).2.1 →
      tickStep s (some p) =
        (⟨(get_swing_signal s.window p).1, some (get_swing_signal s.window p).2.1⟩,
         some ⟨p, (get_swing_signal s.window p).2.2.1,
           (get_swing_signal s.window p).2.2.2,
           (get_swing_signal s.window p).2.1⟩)) ∧
    List.Chain' (fun a b : SignalRecord => a.signal ≠ b.signal)
      (runTicks s fs).2.1 :=
  ⟨tickStep_same s p, tickStep_diff s p, (runTicks_chain s fs).1⟩

/-- C4 witness: a repeated `HOLD` writes nothing; a first `HOLD` against
the initial `None` writes one record. -/
theorem tickStep_change_detection_witness :
    tickStep ⟨List.replicate 15 (1 : ℚ), some Signal.HOLD⟩ (some 1) =
      (⟨List.replicate 15 (1 : ℚ), some Signal.HOLD⟩, none) ∧
    tickStep ⟨[], none⟩ (some 2) =
      (⟨[2], some Signal.HOLD⟩, some ⟨2, 0, 0, Signal.HOLD⟩) := by
  constructor
  · have h := (tickStep_change_detection
      ⟨List.replicate 15 (1 : ℚ), some Signal.HOLD⟩ 1 []).1
      (by with_unfolding_all rfl)
    rw [h]
    with_unfolding_all rfl
  · have h := (tickStep_change_detection ⟨[], none⟩ 2 []).2.1
      (by with_unfolding_all decide)
    rw [h]
    with_unfolding_all rfl

/-- C5: against an upstream that reports 429 on every attempt,
`get_tradingview_price` makes exactly `retries` attempts, sleeping `delay`
seconds after each, and returns `None`; the caller then skips the tick,
leaving the window and `last_signal` untouched. -/
theorem get_tradingview_price_429_exhaustion (fetch : ℕ → FetchOutcome)
    (retries delay : ℕ) (s : TickState)
    (h : ∀ i, fetch i = FetchOutcome.rateLimited) :
    get_tradingview_price fetch retries delay =
      (none, retries, List.replicate retries delay) ∧
    tickStep s none = (s, none) :=
  ⟨getPriceLoop_all429 fetch delay h retries 0, rfl⟩

/-- C5 witness: default budget of 3 attempts with 5-second sleeps. -/
theorem get_tradingview_price_429_exhaustion_witness :
    get_tradingview_price (fun _ => FetchOutcome.rateLimited) 3 5 =
      (none, 3, [5, 5, 5]) ∧
    tickStep ⟨[], none⟩ none = (⟨[], none⟩, none) :=
  get_tradingview_price_429_exhaustion (fun _ => FetchOutcome.rateLimited)
    3 5 ⟨[], none⟩ (fun _ => rfl)

/-- C7: at `now` exactly `market_open + HIGH_FREQ_DURATION` minutes (still
inside the session), the loop selects the low-frequency branch — 15-minute
resolution, the 15-minute windows, and the grid-aligned sleep clamped at 5
seconds — and the high-frequency fixed-60-second branch is exactly the
half-open interval `market_open ≤ now < high_freq_end`. -/
theorem selectPlan_session_boundary (market_open market_close
    high_freq_end : ℕ)
    (hhfe : high_freq_end = market_open + HIGH_FREQ_DURATION * 60)
    (hclose : high_freq_end ≤ market_close) :
    selectPlan high_freq_end market_open market_close high_freq_end =
      some (Resolution.min15, Resolution.min15, SleepPolicy.untilNext10Min 5) ∧
    ∀ t, market_open ≤ t → t < high_freq_end →
      selectPlan t market_open market_close high_freq_end =
        some (Resolution.min1, Resolution.min1,
          SleepPolicy.fixed HIGH_FREQ_INTERVAL) := by
  subst hhfe
  constructor
  · rw [selectPlan, if_pos ⟨by omega, hclose⟩, if_neg (by omega)]
  · intro t h1 h2
    rw [selectPlan, if_pos ⟨h1, by omega⟩, if_pos h2]

/-- C7 witness: a session opening at 0 with close at 23400 seconds. -/
theorem selectPlan_session_boundary_witness :
    selectPlan 1800 0 23400 1800 =
      some (Resolution.min15, Resolution.min15, SleepPolicy.untilNext10Min 5) ∧
    selectPlan 0 0 23400 1800 =
      some (Resolution.min1, Resolution.min1,
        SleepPolicy.fixed HIGH_FREQ_INTERVAL) :=
  ⟨(selectPlan_session_boundary 0 23400 1800 (by decide) (by decide)).1,
   (selectPlan_session_boundary 0 23400 1800 (by decide) (by decide)).2
     0 (by decide) (by decide)⟩

/-- C8: `preload_price_history` makes a single fetch attempt; a successful
fetch fills an empty window with `LONG_MA` copies of the fetched price, and
any failure leaves the window unchanged (the function is total, so it never
raises). -/
theorem preload_price_history_spec (f : FetchOutcome) (w : List ℚ) :
    (preload_price_history f w).2 ≤ 1 ∧
    (∀ p, f = FetchOutcome.ok p → w = [] →
      (preload_price_history f w).1 = List.replicate LONG_MA p) ∧
    ((f = FetchOutcome.rateLimited ∨ f = FetchOutcome.unavailable) →
      (preload_price_history f w).1 = w) := by
  refine ⟨?_, ?_, ?_⟩
  · cases f <;> simp [preload_price_history]
  · rintro p rfl rfl
    simp only [preload_price_history]
    exact foldl_dequeAppend_replicate p LONG_MA (le_refl _)
  · rintro (rfl | rfl) <;> rfl

/-- C8 witness: preloading an empty window from a price of 7. -/
theorem preload_price_history_spec_witness :
    (preload_price_history (FetchOutcome.ok 7) []).1 =
      List.replicate LONG_MA 7 :=
  (preload_price_history_spec (FetchOutcome.ok 7) []).2.1 7 rfl rfl

/-- C9: if the first non-429 failure occurs at attempt `i` (all earlier
attempts rate-limited, budget remaining), `get_tradingview_price` returns
`None` right after that attempt — `i + 1` attempts in total, and no
further retries or sleeps beyond the `i` already spent. -/
theorem get_tradingview_price_non429 (fetch : ℕ → FetchOutcome)
    (retries delay i : ℕ) (hi : i < retries)
    (h429 : ∀ j, j < i → fetch j = FetchOutcome.rateLimited)
    (hu : fetch i = FetchOutcome.unavailable) :
    get_tradingview_price fetch retries delay =
      (none, i + 1, List.replicate i delay) := by
  unfold get_tradingview_price
  refine getPriceLoop_non429 fetch delay i 0 retries hi ?_ ?_
  · intro j hj
    rw [show 0 + j = j by omega]
    exact h429 j hj
  · rw [show 0 + i = i by omega]
    exact hu

/-- C9 witness: an immediately-unavailable upstream is tried once. -/
theorem get_tradingview_price_non429_witness :
    get_tradingview_price (fun _ => FetchOutcome.unavailable) 3 5 =
      (none, 1, []) :=
  get_tradingview_price_non429 (fun _ => FetchOutcome.unavailable) 3 5 0
    (by decide) (fun j hj => absurd hj (by omega)) rfl

end TVX
